import Mathlib

/-!
# Verification of the wikifinder claim-extraction and query-synthesis engine

Shallow embedding of the Python sources (`claims.py`, `finderwikicorpus.py`,
`bingapi.py`) of the wikifinder repository.  Python strings are modelled as
`List Char` (`Str`); Python floats are modelled as exact rationals `ℚ`;
Python exceptions are modelled by `Option` results (`none` = the call raises).
`str.lower()` is modelled by ASCII lower-casing (`Char.toLower`), which agrees
with Python on the ASCII inputs considered here.
-/

/-- Python strings, modelled as lists of characters. -/
abbrev Str := List Char

/-- Model of Python `str.lower()` (ASCII). -/
def pyLower (s : Str) : Str := s.map Char.toLower

/-- One step of `splitChar`, processing one character from the right. -/
def splitCharStep (sep c : Char) (acc : List Str) : List Str :=
  if c = sep then [] :: acc
  else
    match acc with
    | [] => [[c]]
    | a :: as => (c :: a) :: as

/-- Model of Python `s.split(c)` for a single-character separator `c`:
splits on every occurrence, keeping empty pieces. -/
def splitChar (sep : Char) (s : Str) : List Str :=
  s.foldr (splitCharStep sep) [[]]

/-- Model of Python `str.strip()`: remove leading and trailing whitespace. -/
def pyStrip (s : Str) : Str :=
  ((s.dropWhile Char.isWhitespace).reverse.dropWhile Char.isWhitespace).reverse

/-- Model of Python `s.replace(c, "")` for a single character `c`: every
occurrence of `c` is removed. -/
def removeChar (c : Char) (s : Str) : Str := s.filter (· ≠ c)

/-- Model of Python `s.split(sep)` for a non-empty multi-character separator,
with explicit fuel (the callers pass fuel `s.length + 1`, which is always
sufficient since every step consumes at least one character). -/
def pySplitFuel (sep : Str) (fuel : ℕ) (acc : Str) (s : Str) : List Str :=
  match fuel, s with
  | 0, _ => [acc.reverse]
  | _ + 1, [] => [acc.reverse]
  | fuel + 1, c :: rest =>
      if sep <+: (c :: rest) then
        acc.reverse :: pySplitFuel sep fuel [] ((c :: rest).drop sep.length)
      else
        pySplitFuel sep fuel (c :: acc) rest

/-- Model of Python `s.split(sep)` for a non-empty separator string. -/
def pySplit (sep s : Str) : List Str :=
  pySplitFuel sep (s.length + 1) [] s

/-- Model of Python `sub in s` (substring containment). -/
def pyContains (s sub : Str) : Prop := sub <:+: s

instance (s sub : Str) : Decidable (pyContains s sub) := by
  unfold pyContains; infer_instance

/-- Model of Python `sep.join(parts)`. -/
def pyJoin (sep : Str) (parts : List Str) : Str :=
  match parts with
  | [] => []
  | [p] => p
  | p :: ps => p ++ sep ++ pyJoin sep ps

/-- Characters treated as word characters by the gensim tokenizer pattern
`(((?![\d])\w)+)`: word characters that are not digits, i.e. letters and
underscore (ASCII model). -/
def wordChar (c : Char) : Bool := c.isAlpha || c = '_'

/-- Model of `gensim.utils.tokenize`: maximal runs of non-digit word
characters. -/
def tokenize (s : Str) : List Str :=
  let p := s.foldr
    (fun c (p : Str × List Str) =>
      if wordChar c then (c :: p.1, p.2)
      else ([], if p.1 = [] then p.2 else p.1 :: p.2))
    ([], [])
  if p.1 = [] then p.2 else p.1 :: p.2

/-! ## `Claim.__normalize` (`claims.py`, lines 321-342) -/

/-- `Claim.__normalize`: scale a list of numbers by its sum; if the sum is 0,
return the list unchanged.  (`1.0 * elem / list_sum` in the source is
`elem / list_sum`.) -/
def Claim.normalize (l : List ℚ) : List ℚ :=
  let list_sum := l.sum
  if list_sum = 0 then l
  else l.map (fun elem => elem / list_sum)

lemma sum_map_div (l : List ℚ) (s : ℚ) :
    (l.map (fun e => e / s)).sum = l.sum / s := by
  induction l with
  | nil => simp
  | cons a t ih => simp [ih, add_div]

/-- C7: if the input sums to 0, `Claim.normalize` returns it unchanged; otherwise it
divides every element by the sum, and the result sums to exactly 1 over exact
rational arithmetic. -/
theorem Claim.normalize_spec (l : List ℚ) :
    (l.sum = 0 → Claim.normalize l = l) ∧
    (l.sum ≠ 0 →
      Claim.normalize l = l.map (fun e => e / l.sum) ∧ (Claim.normalize l).sum = 1) := by
  constructor
  · intro h; simp [Claim.normalize, h]
  · intro h
    refine ⟨by simp [Claim.normalize, h], ?_⟩
    simp [Claim.normalize, h, sum_map_div, div_self h]

/-- Witness for C7 at the concrete inputs `[0, 0]` and `[1, 3]`. -/
theorem Claim.normalize_spec_witness :
    Claim.normalize [(0:ℚ), 0] = [0, 0] ∧
    Claim.normalize [(1:ℚ), 3] = [1/4, 3/4] ∧ (Claim.normalize [(1:ℚ), 3]).sum = 1 := by
  refine ⟨(Claim.normalize_spec [0, 0]).1 (by norm_num), ?_, ?_⟩
  · have h := ((Claim.normalize_spec [1, 3]).2 (by norm_num)).1
    rw [h]; norm_num
  · exact ((Claim.normalize_spec [1, 3]).2 (by norm_num)).2

/-! ## The balanced-brace template scanner and rewriter
(`finderwikicorpus.py`, lines 21-159) -/

/-- Model of the Python slice `s[a:b]` for `a : ℕ` and `b` either a natural
number or `None`. -/
def pySliceTo (s : Str) (a : ℕ) (b : Option ℕ) : Str :=
  match b with
  | none => s.drop a
  | some b => (s.take b).drop a

/-- State of the character scan in `replace_citation_templates`. -/
structure ScanState where
  n_open : ℕ
  n_close : ℕ
  starts : List ℕ
  ends : List ℕ
  in_template : Bool
  prev : Option Char
deriving DecidableEq

def scanInit : ScanState := ⟨0, 0, [], [], false, none⟩

/-- One iteration of the `for i, c in enumerate(iter(s))` loop of
`replace_citation_templates`: entering a template is detected by two
consecutive `{`; inside a template the open/close counters are updated and
the template closes when they agree. -/
def scanStep (st : ScanState) (ic : ℕ × Char) : ScanState :=
  let st :=
    if ¬st.in_template ∧ ic.2 = '{' ∧ st.prev = some '{' then
      { st with starts := st.starts ++ [ic.1 - 1], in_template := true,
                n_open := 1 }
    else st
  let st :=
    if st.in_template then
      let st :=
        if ic.2 = '{' then { st with n_open := st.n_open + 1 }
        else if ic.2 = '}' then { st with n_close := st.n_close + 1 }
        else st
      if st.n_open = st.n_close then
        { st with ends := st.ends ++ [ic.1], in_template := false,
                  n_open := 0, n_close := 0 }
      else st
    else st
  { st with prev := some ic.2 }

/-- The start and end positions of the template spans found in `s`. -/
def scanTemplates (s : Str) : List ℕ × List ℕ :=
  let st := s.enum.foldl scanStep scanInit
  (st.starts, st.ends)

/-- The literal text pieces outside the templates:
`[s[end + 1:start] for start, end in zip(starts + [None], [-1] + ends)]`. -/
def betweenSegs (s : Str) (starts ends : List ℕ) : List Str :=
  ((starts.map some ++ [none]).zip (0 :: ends.map (· + 1))).map
    (fun (p : Option ℕ × ℕ) => pySliceTo s p.2 p.1)

/-- `is_cn` (`finderwikicorpus.py`, lines 21-38): the template's first
pipe-delimited part, lower-cased, with braces removed and trimmed, is a
member of the citation-identifier set. -/
def is_cn (template : Str) (set_citation : List Str) : Bool :=
  let text := pyStrip (removeChar '}' (removeChar '{'
    ((splitChar '|' (pyLower template)).headD [])))
  decide (text ∈ set_citation)

/-- `is_quote` (`finderwikicorpus.py`, lines 41-57). -/
def is_quote (template : Str) (identifier : Str) : Bool :=
  let text := pyStrip (removeChar '}' (removeChar '{'
    ((splitChar '|' (pyLower template)).headD [])))
  decide (text = identifier)

/-- `get_quote` (`finderwikicorpus.py`, lines 60-90).  The `try`/`except`
around the fallback is kept implicit: the joining of the remaining parts
cannot fail.  (The misspelling `euqals` is the source's.) -/
def get_quote (template : Str) (text_identifier : Str) : Str :=
  let split := splitChar '|' (pyLower template)
  let identifier_with_euqals := text_identifier ++ ['=']
  let quote := split.foldl
    (fun quote part =>
      if pyContains part identifier_with_euqals then
        pyStrip ((pySplit identifier_with_euqals part).getD 1 [])
      else quote)
    []
  if quote = [] then
    pyStrip (removeChar '}' (pyJoin [] (split.drop 1)))
  else quote

def CNMARK : Str := "$$CNMARK$$".toList

/-- The `while ... re.match("\n+", aList[-1]): del aList[-1]` loop in the
quote branch: drop trailing accumulated pieces that start with a newline. -/
def dropTrailingNl (aList : List Str) : List Str :=
  (aList.reverse.dropWhile (fun seg => seg.head? = some '\n')).reverse

/-- `replace_citation_templates` (`finderwikicorpus.py`, lines 92-159). -/
def replace_citation_templates (s : Str) (set_citation : List Str)
    (quote_identifier text_identifier : Str) : Str :=
  let scanned := scanTemplates s
  let starts := scanned.1
  let ends := scanned.2
  let templates := (starts.zip ends).map
    (fun p => pySliceTo s p.1 (some (p.2 + 1)))
  let segs := betweenSegs s starts ends
  let aList := templates.enum.foldl
    (fun aList (p : ℕ × Str) =>
      let aList := aList ++ [segs.getD p.1 []]
      if is_cn p.2 set_citation then aList ++ [CNMARK]
      else if is_quote p.2 quote_identifier then
        let aList := dropTrailingNl aList
        (aList ++ [['\n']]) ++ [get_quote p.2 text_identifier]
      else aList)
    []
  if aList = [] then pyJoin [] segs
  else pyJoin [] (aList ++ [segs.getLastD []])

/-- C6: the rewriter replaces a citation template by the `$$CNMARK$$` marker
and the scanner matches a nested template as a single span covering the whole
string (`([0], [10])` on the 11-character input). -/
theorem template_rewrite_examples :
    replace_citation_templates ("x \x7b\x7bcn\x7d\x7d y".toList)
        ["cn".toList] ("quote".toList) ("text".toList)
      = "x $$CNMARK$$ y".toList ∧
    scanTemplates ("\x7b\x7ba\x7b\x7bb\x7d\x7dc\x7d\x7d".toList)
      = ([0], [10]) := by
  constructor <;> decide

/-- When the template-entering condition fires, the scan step appends the
position of the first `{` to the start list. -/
lemma scanStep_starts_enter (st : ScanState) (ic : ℕ × Char)
    (hc : ¬st.in_template = true ∧ ic.2 = '{' ∧ st.prev = some '{') :
    (scanStep st ic).starts = st.starts ++ [ic.1 - 1] := by
  unfold scanStep
  dsimp only
  rw [if_pos hc]
  split_ifs <;> rfl

/-- When the template-entering condition does not fire, the scan step leaves
the start list unchanged. -/
lemma scanStep_starts_stay (st : ScanState) (ic : ℕ × Char)
    (hc : ¬(¬st.in_template = true ∧ ic.2 = '{' ∧ st.prev = some '{')) :
    (scanStep st ic).starts = st.starts := by
  unfold scanStep
  dsimp only
  rw [if_neg hc]
  split_ifs <;> rfl

/-- Outside a template and with the entering condition not firing, the scan
step only records the previous character. -/
lemma scanStep_not_in (st : ScanState) (ic : ℕ × Char)
    (hc : ¬(¬st.in_template = true ∧ ic.2 = '{' ∧ st.prev = some '{'))
    (hnt : st.in_template = false) :
    scanStep st ic = { st with prev := some ic.2 } := by
  unfold scanStep
  dsimp only
  rw [if_neg hc, if_neg (by simp [hnt])]

/-- Invariant of the scan: while no start has been recorded, no end has been
recorded and the scanner is not inside a template. -/
def ScanInv (st : ScanState) : Prop :=
  st.starts = [] → st.ends = [] ∧ st.in_template = false

lemma scanStep_inv (st : ScanState) (ic : ℕ × Char) (h : ScanInv st) :
    ScanInv (scanStep st ic) := by
  intro hs
  by_cases hc : ¬st.in_template = true ∧ ic.2 = '{' ∧ st.prev = some '{'
  · rw [scanStep_starts_enter st ic hc] at hs
    simp at hs
  · rw [scanStep_starts_stay st ic hc] at hs
    obtain ⟨he, hit⟩ := h hs
    rw [scanStep_not_in st ic hc hit]
    exact ⟨he, hit⟩

lemma scan_foldl_inv (l : List (ℕ × Char)) (st : ScanState) (h : ScanInv st) :
    ScanInv (l.foldl scanStep st) := by
  induction l generalizing st with
  | nil => exact h
  | cons a t ih => exact ih _ (scanStep_inv _ _ h)

lemma scan_starts_nil_ends_nil (s : Str) (h : (scanTemplates s).1 = []) :
    (scanTemplates s).2 = [] := by
  have := scan_foldl_inv s.enum scanInit (by intro _; exact ⟨rfl, rfl⟩)
  exact (this h).1

/-- C8 (amended): if the scanner records no template opening (in particular
for any string with no two consecutive `{` characters), the rewriter returns
the input unchanged. -/
theorem replace_no_template_identity (s : Str) (set_citation : List Str)
    (quote_identifier text_identifier : Str)
    (h : (scanTemplates s).1 = []) :
    replace_citation_templates s set_citation quote_identifier text_identifier
      = s := by
  have he := scan_starts_nil_ends_nil s h
  simp only [replace_citation_templates, h, he]
  simp [betweenSegs, pySliceTo, pyJoin, List.intercalate]

/-- Witness for the amended C8 at a concrete template-free input. -/
theorem replace_no_template_identity_witness :
    replace_citation_templates ("hello world".toList) ["cn".toList]
        ("quote".toList) ("text".toList)
      = "hello world".toList :=
  replace_no_template_identity _ _ _ _ (by decide)

/-! ### Lower-casing and character-provenance lemmas for `get_quote` -/

lemma char_toNat_ofNat (n : ℕ) (h : n.isValidChar) :
    (Char.ofNat n).toNat = n := by
  rw [Char.ofNat, dif_pos h]
  simp [Char.ofNatAux, Char.toNat, UInt32.toNat, BitVec.toNat_ofNatLt]

/-- ASCII lower-casing is idempotent. -/
lemma char_toLower_idem (c : Char) : c.toLower.toLower = c.toLower := by
  unfold Char.toLower
  dsimp only
  split_ifs with h1 h2
  · exfalso
    rw [char_toNat_ofNat (c.toNat + 32)
      (by rcases h1 with ⟨_, hb⟩; left; omega)] at h2
    omega
  · rfl
  · rfl

lemma toLower_fixed_of_mem_pyLower {a : Char} {s : Str} (h : a ∈ pyLower s) :
    a.toLower = a := by
  obtain ⟨b, _, rfl⟩ := List.mem_map.mp h
  exact char_toLower_idem b

lemma pyLower_eq_self_of_forall {s : Str} (h : ∀ a ∈ s, a.toLower = a) :
    pyLower s = s := by
  unfold pyLower
  induction s with
  | nil => rfl
  | cons c t ih =>
    rw [List.map_cons, h c (List.mem_cons_self _ _),
      ih (fun a ha => h a (List.mem_cons_of_mem _ ha))]

lemma splitChar_cons (sep c : Char) (t : Str) :
    splitChar sep (c :: t) = splitCharStep sep c (splitChar sep t) := rfl

lemma splitChar_ne_nil (sep : Char) (s : Str) : splitChar sep s ≠ [] := by
  induction s with
  | nil => simp [splitChar]
  | cons c t ih =>
    rw [splitChar_cons]
    unfold splitCharStep
    split_ifs
    · simp
    · rcases splitChar sep t with _ | ⟨a, as⟩ <;> simp

lemma mem_splitChar {sep : Char} {s part : Str} {a : Char}
    (hp : part ∈ splitChar sep s) (ha : a ∈ part) : a ∈ s := by
  induction s generalizing part with
  | nil =>
    simp [splitChar] at hp
    subst hp
    simp at ha
  | cons c t ih =>
    rw [splitChar_cons] at hp
    unfold splitCharStep at hp
    split_ifs at hp
    · rcases List.mem_cons.mp hp with rfl | hp'
      · simp at ha
      · exact List.mem_cons_of_mem _ (ih hp' ha)
    · rcases hm : splitChar sep t with _ | ⟨p, ps⟩
      · exact absurd hm (splitChar_ne_nil sep t)
      · rw [hm] at hp
        dsimp only at hp
        rcases List.mem_cons.mp hp with rfl | hp'
        · rcases List.mem_cons.mp ha with rfl | ha'
          · exact List.mem_cons_self _ _
          · exact List.mem_cons_of_mem _
              (ih (by rw [hm]; exact List.mem_cons_self _ _) ha')
        · exact List.mem_cons_of_mem _
            (ih (by rw [hm]; exact List.mem_cons_of_mem _ hp') ha)

lemma mem_pySplitFuel {sep : Str} {fuel : ℕ} {acc s part : Str} {a : Char}
    (hp : part ∈ pySplitFuel sep fuel acc s) (ha : a ∈ part) :
    a ∈ acc ∨ a ∈ s := by
  induction fuel generalizing acc s part with
  | zero =>
    simp [pySplitFuel] at hp
    subst hp
    exact Or.inl (List.mem_reverse.mp ha)
  | succ fuel ih =>
    match s with
    | [] =>
      simp [pySplitFuel] at hp
      subst hp
      exact Or.inl (List.mem_reverse.mp ha)
    | c :: rest =>
      rw [pySplitFuel] at hp
      split_ifs at hp
      · rcases List.mem_cons.mp hp with rfl | hp'
        · exact Or.inl (List.mem_reverse.mp ha)
        · rcases ih hp' ha with h | h
          · simp at h
          · exact Or.inr (List.drop_subset _ _ h)
      · rcases ih hp ha with h | h
        · rcases List.mem_cons.mp h with rfl | h'
          · exact Or.inr (List.mem_cons_self _ _)
          · exact Or.inl h'
        · exact Or.inr (List.mem_cons_of_mem _ h)

lemma mem_pyStrip {s : Str} {a : Char} (h : a ∈ pyStrip s) : a ∈ s := by
  unfold pyStrip at h
  rw [List.mem_reverse] at h
  have h1 := (List.dropWhile_sublist _).subset h
  rw [List.mem_reverse] at h1
  exact (List.dropWhile_sublist _).subset h1

lemma mem_removeChar {c : Char} {s : Str} {a : Char}
    (h : a ∈ removeChar c s) : a ∈ s :=
  (List.mem_filter.mp h).1

lemma pyJoin_nil_join (parts : List Str) : pyJoin [] parts = parts.join := by
  induction parts with
  | nil => rfl
  | cons p ps ih =>
    cases ps with
    | nil => simp [pyJoin]
    | cons q qs =>
      have hu : pyJoin [] (p :: q :: qs) = p ++ [] ++ pyJoin [] (q :: qs) := rfl
      rw [hu, ih]
      simp

lemma mem_pyJoin_nil {parts : List Str} {a : Char}
    (h : a ∈ pyJoin [] parts) : ∃ part ∈ parts, a ∈ part := by
  rw [pyJoin_nil_join] at h
  exact List.mem_join.mp h

/-- Every character of the quote value accumulated by the parameter-matching
loop of `get_quote` comes from the initial value or from one of the parts. -/
lemma mem_quote_foldl {idEq : Str} {parts : List Str} {q : Str} {a : Char}
    (h : a ∈ parts.foldl
      (fun quote part =>
        if pyContains part idEq then
          pyStrip ((pySplit idEq part).getD 1 [])
        else quote) q) :
    a ∈ q ∨ ∃ part ∈ parts, a ∈ part := by
  induction parts generalizing q with
  | nil => exact Or.inl h
  | cons p ps ih =>
    rw [List.foldl_cons] at h
    rcases ih h with h' | h'
    · split_ifs at h' with hc
      · right
        refine ⟨p, List.mem_cons_self _ _, ?_⟩
        have h1 := mem_pyStrip h'
        rcases hg : (pySplit idEq p).get? 1 with _ | v
        · rw [List.getD, hg] at h1; simp at h1
        · rw [List.getD, hg] at h1
          rcases mem_pySplitFuel (List.get?_mem hg) h1 with h2 | h2
          · simp at h2
          · exact h2
      · exact Or.inl h'
    · obtain ⟨part, hmem, hpa⟩ := h'
      exact Or.inr ⟨part, List.mem_cons_of_mem _ hmem, hpa⟩

lemma mem_get_quote {template text_identifier : Str} {a : Char}
    (h : a ∈ get_quote template text_identifier) : a ∈ pyLower template := by
  unfold get_quote at h
  dsimp only at h
  split_ifs at h
  · obtain ⟨part, hmem, hpa⟩ := mem_pyJoin_nil (mem_removeChar (mem_pyStrip h))
    exact mem_splitChar (List.drop_subset _ _ hmem) hpa
  · rcases mem_quote_foldl h with h' | h'
    · simp at h'
    · obtain ⟨part, hmem, hpa⟩ := h'
      exact mem_splitChar hmem hpa

/-- C10: every quote text emitted by `get_quote` is fully lower-cased, since
both the matching-parameter value and the fallback are extracted from the
lower-cased copy of the template. -/
theorem get_quote_lowercase (template text_identifier : Str) :
    pyLower (get_quote template text_identifier)
      = get_quote template text_identifier :=
  pyLower_eq_self_of_forall
    (fun _ ha => toLower_fixed_of_mem_pyLower (mem_get_quote ha))

/-! ### The `get_quote` fallback (C3) -/

/-- Concatenating all pipe-delimited parts of `s` recovers `s` with the pipe
characters removed. -/
lemma join_splitChar (sep : Char) (s : Str) :
    pyJoin [] (splitChar sep s) = s.filter (· ≠ sep) := by
  induction s with
  | nil => rfl
  | cons c t ih =>
    rw [splitChar_cons]
    unfold splitCharStep
    split_ifs with hc
    · subst hc
      rw [List.filter_cons_of_neg (by simp)]
      rw [← ih, pyJoin_nil_join, pyJoin_nil_join]
      simp
    · rcases hm : splitChar sep t with _ | ⟨p, ps⟩
      · exact absurd hm (splitChar_ne_nil sep t)
      · rw [hm] at ih
        rw [List.filter_cons_of_pos (by simpa using hc), ← ih]
        dsimp only
        rw [pyJoin_nil_join, pyJoin_nil_join]
        simp

/-- Concatenating the pipe-delimited parts after the first one yields the
text following the first pipe, with the remaining pipes removed. -/
lemma join_splitChar_drop_one (sep : Char) (s : Str) :
    pyJoin [] ((splitChar sep s).drop 1)
      = ((s.dropWhile (· ≠ sep)).tail).filter (· ≠ sep) := by
  induction s with
  | nil => rfl
  | cons c t ih =>
    rw [splitChar_cons]
    unfold splitCharStep
    split_ifs with hc
    · subst hc
      rw [List.dropWhile_cons_of_neg (by simp)]
      simpa using join_splitChar c t
    · rcases hm : splitChar sep t with _ | ⟨p, ps⟩
      · exact absurd hm (splitChar_ne_nil sep t)
      · rw [hm] at ih
        rw [List.dropWhile_cons_of_pos (by simpa using hc)]
        dsimp only
        simpa using ih

/-- If no part satisfies the containment test, the parameter-matching loop of
`get_quote` leaves the accumulator unchanged. -/
lemma quote_foldl_of_no_match {idEq : Str} {parts : List Str} {q : Str}
    (h : ∀ part ∈ parts, ¬ pyContains part idEq) :
    parts.foldl
      (fun quote part =>
        if pyContains part idEq then
          pyStrip ((pySplit idEq part).getD 1 [])
        else quote) q = q := by
  induction parts generalizing q with
  | nil => rfl
  | cons p ps ih =>
    rw [List.foldl_cons, if_neg (h p (List.mem_cons_self _ _))]
    exact ih (fun part hp => h part (List.mem_cons_of_mem _ hp))

/-- C3 (amended): when no pipe-delimited part of the lower-cased template
contains `text_identifier ++ "="`, the fallback emitted by `get_quote` is the
text after the first pipe with the remaining pipe separators dropped, with
every `}` character removed (interior ones included), trimmed of surrounding
whitespace. -/
theorem get_quote_fallback (template text_identifier : Str)
    (h : ∀ part ∈ splitChar '|' (pyLower template),
      ¬ pyContains part (text_identifier ++ ['='])) :
    get_quote template text_identifier =
      pyStrip (removeChar '}'
        ((((pyLower template).dropWhile (· ≠ '|')).tail).filter (· ≠ '|'))) := by
  unfold get_quote
  dsimp only
  rw [quote_foldl_of_no_match h, if_pos rfl, join_splitChar_drop_one]

/-- Witness for the amended C3 at a concrete quote template without a text
parameter. -/
theorem get_quote_fallback_witness :
    get_quote ("\x7b\x7bquote|abc\x7d\x7d".toList) ("text".toList) =
      pyStrip (removeChar '}'
        ((((pyLower ("\x7b\x7bquote|abc\x7d\x7d".toList)).dropWhile
            (· ≠ '|')).tail).filter (· ≠ '|'))) :=
  get_quote_fallback _ _ (by decide)

/-- The fallback described by the claim's words: everything after the first
pipe-delimited segment, stripped only of trailing `}` characters, interior
`}` preserved. -/
def quoteFallbackClaim (template : Str) : Str :=
  ((((pyLower template).dropWhile (· ≠ '|')).tail).reverse.dropWhile
    (· = '}')).reverse

/-- C3 counterexample: on the quote template `"{{quote|ab}cd}}"` (no `text=`
parameter anywhere), the code removes the interior `}` as well, emitting
`"abcd"`, while the claim's fallback would keep it (`"ab}cd"`). -/
theorem get_quote_fallback_counterexample :
    (∀ part ∈ splitChar '|' (pyLower ("\x7b\x7bquote|ab\x7dcd\x7d\x7d".toList)),
      ¬ pyContains part (("text".toList) ++ ['='])) ∧
    get_quote ("\x7b\x7bquote|ab\x7dcd\x7d\x7d".toList) ("text".toList)
      = "abcd".toList ∧
    quoteFallbackClaim ("\x7b\x7bquote|ab\x7dcd\x7d\x7d".toList)
      = "ab\x7dcd".toList ∧
    ("abcd".toList : Str) ≠ "ab\x7dcd".toList := by
  refine ⟨by decide, by decide, by decide, by decide⟩

/-! ## `_split_in_sents` (`claims.py`, lines 10-69) -/

/-- `".".join(sentence_part)`. -/
def joinDot (parts : List Str) : Str := pyJoin ['.'] parts

/-- `sentence_part[-1].split(" ")[-1]`: the last space-separated word of the
last fragment in the sentence buffer (the split is unfiltered, matching the
source). -/
def lastWordOfBuffer (sentence_part : List Str) : Str :=
  (splitChar ' ' (sentence_part.getLastD [])).getLastD []

/-- The `elif` condition of `_split_in_sents` deciding that a `.` does NOT
terminate the sentence (evaluated when the next fragment has at least one
word): the next fragment has exactly one word, or its first word is entirely
lower-case, or the last word of the buffer is changed by lower-casing and the
last buffer fragment is shorter than 5 characters. -/
def sentNoTerminate (sentence_part : List Str) (part_next : Str) : Prop :=
  ((splitChar ' ' part_next).filter (· ≠ [])).length = 1 ∨
  pyLower (((splitChar ' ' part_next).filter (· ≠ [])).headD [])
    = ((splitChar ' ' part_next).filter (· ≠ [])).headD [] ∨
  (pyLower (lastWordOfBuffer sentence_part) ≠ lastWordOfBuffer sentence_part
    ∧ (sentence_part.getLastD []).length < 5)

instance (sp : List Str) (pn : Str) : Decidable (sentNoTerminate sp pn) := by
  unfold sentNoTerminate; infer_instance

/-- The fragment loop of `_split_in_sents`. -/
def sentsLoop (sentence_part : List Str) : List Str → List Str
  | [] => []
  | [elem] => [joinDot (sentence_part ++ [elem])]
  | elem :: part_next :: rest =>
      let sp := sentence_part ++ [elem]
      if (((splitChar ' ' part_next).filter (· ≠ [])).length) < 1 then
        joinDot sp :: sentsLoop [] (part_next :: rest)
      else if sentNoTerminate sp part_next then
        sentsLoop sp (part_next :: rest)
      else
        joinDot sp :: sentsLoop [] (part_next :: rest)

/-- `_split_in_sents`: split on `.`, drop empty fragments, and reassemble
sentences using the termination heuristic. -/
def split_in_sents (s : Str) : List Str :=
  sentsLoop [] ((splitChar '.' s).filter (· ≠ []))

lemma pyLower_eq_self_iff (w : Str) :
    pyLower w = w ↔ ∀ c ∈ w, c.toLower = c := by
  constructor
  · intro h c hc
    induction w with
    | nil => simp at hc
    | cons b t ih =>
      rw [pyLower, List.map_cons, List.cons.injEq] at h
      rcases List.mem_cons.mp hc with rfl | hc'
      · exact h.1
      · exact ih h.2 hc'
  · exact pyLower_eq_self_of_forall

/-- C5 (amended): at a boundary where the next fragment has at least two
words and its first word is not entirely lower-case, the `.` does not
terminate the sentence exactly when the last word of the buffer contains a
character changed by lower-casing (an upper-case letter) and the entire last
fragment of the buffer — not the word — is at most 4 characters long. -/
theorem sent_boundary_rule (sentence_part : List Str) (part_next : Str)
    (h2 : 2 ≤ ((splitChar ' ' part_next).filter (· ≠ [])).length)
    (hup : pyLower (((splitChar ' ' part_next).filter (· ≠ [])).headD [])
      ≠ ((splitChar ' ' part_next).filter (· ≠ [])).headD []) :
    sentNoTerminate sentence_part part_next ↔
      ((∃ c ∈ lastWordOfBuffer sentence_part, c.toLower ≠ c) ∧
        (sentence_part.getLastD []).length ≤ 4) := by
  unfold sentNoTerminate
  constructor
  · rintro (h1 | h1 | ⟨ha, hb⟩)
    · omega
    · exact absurd h1 hup
    · refine ⟨?_, by omega⟩
      by_contra hall
      push_neg at hall
      exact ha (pyLower_eq_self_of_forall hall)
  · rintro ⟨⟨c, hc, hne⟩, hlen⟩
    refine Or.inr (Or.inr ⟨?_, by omega⟩)
    intro heq
    exact hne ((pyLower_eq_self_iff _).mp heq c hc)

/-- Witness for the amended C5 at the buffer `["Mr"]` and next fragment
`" Smith came"`. -/
theorem sent_boundary_rule_witness :
    sentNoTerminate ["Mr".toList] (" Smith came".toList) ↔
      ((∃ c ∈ lastWordOfBuffer ["Mr".toList], c.toLower ≠ c) ∧
        (["Mr".toList].getLastD []).length ≤ 4) :=
  sent_boundary_rule ["Mr".toList] (" Smith came".toList)
    (by decide) (by decide)

/-- C5 counterexample.  First boundary: the buffer fragment `"He met Dr"`
ends in the word `"Dr"` (upper-case initial, 2 characters), so the claim
predicts that the `.` does not terminate; but the code compares the length of
the whole fragment (9 ≥ 5) and terminates the sentence.  Second boundary: the
buffer fragment `"x aB"` ends in the word `"aB"`, which does not begin with
an upper-case letter, so the claim predicts termination; but the code only
asks whether lower-casing changes the word (it does) and the fragment length
(4 < 5), so it does not terminate. -/
theorem sent_boundary_counterexample :
    (((splitChar ' ' (" Smith came".toList)).filter (· ≠ [])).length = 2 ∧
     pyLower (((splitChar ' ' (" Smith came".toList)).filter
        (· ≠ [])).headD []) ≠
       ((splitChar ' ' (" Smith came".toList)).filter (· ≠ [])).headD [] ∧
     lastWordOfBuffer ["He met Dr".toList] = "Dr".toList ∧
     ¬ sentNoTerminate ["He met Dr".toList] (" Smith came".toList) ∧
     split_in_sents ("He met Dr. Smith came".toList)
       = ["He met Dr".toList, " Smith came".toList]) ∧
    (lastWordOfBuffer ["x aB".toList] = "aB".toList ∧
     sentNoTerminate ["x aB".toList] (" Xy z".toList) ∧
     split_in_sents ("x aB. Xy z".toList) = ["x aB. Xy z".toList]) := by
  refine ⟨⟨by decide, by decide, by decide, by decide, by decide⟩,
    by decide, by decide, by decide⟩

/-! ## `numpy.percentile` and `Claim.__get_cutoff`
(`claims.py`, lines 344-485) -/

/-- `numpy.percentile` with the default linear interpolation, over exact
rationals: sort ascending, take `h = (n-1)·p/100`, and interpolate between
the order statistics at `⌊h⌋` and `⌊h⌋+1`.  Only ever applied to non-empty
lists (numpy raises on an empty array; the embedded callers guard). -/
def percentile (l : List ℚ) (p : ℚ) : ℚ :=
  let a := List.insertionSort (· ≤ ·) l
  match a with
  | [] => 0
  | _ :: _ =>
    let n := a.length
    let h : ℚ := ((n : ℚ) - 1) * p / 100
    let lo : ℕ := (⌊h⌋).toNat
    let x0 := a.getD lo 0
    let x1 := a.getD (lo + 1) x0
    x0 + (h - (lo : ℚ)) * (x1 - x0)

/-- `Claim.TAGS`. -/
def Claim.TAGS : List Str :=
  ["very_large".toList, "large".toList, "medium_large".toList,
   "medium".toList, "medium_small".toList, "small".toList,
   "very_small".toList]

/-- `Claim.__get_tag`: classify a spread / descent-rate value into one of the
seven ordinal tags. -/
def Claim.get_tag (value : ℚ) : Str :=
  if value > 85/100 then Claim.TAGS.getD 0 []
  else if value > 7/10 then Claim.TAGS.getD 1 []
  else if value > 6/10 then Claim.TAGS.getD 2 []
  else if value > 4/10 then Claim.TAGS.getD 3 []
  else if value > 3/10 then Claim.TAGS.getD 4 []
  else if value > 15/100 then Claim.TAGS.getD 5 []
  else Claim.TAGS.getD 6 []

/-- `Claim.__lower_by_max`, with fuel for the `while maximum >= 0` loop; the
call sites pass a positive `change`, so fuel `maximum.toNat + 1` always
suffices. -/
def Claim.lower_by_max_fuel : ℕ → ℤ → ℤ → ℤ → ℤ
  | 0, breaking_point, _, _ => breaking_point
  | fuel + 1, breaking_point, maximum, change =>
      if maximum ≥ 0 then
        if breaking_point - maximum ≥ 0 then breaking_point - maximum
        else Claim.lower_by_max_fuel fuel breaking_point (maximum - change)
          change
      else breaking_point

def Claim.lower_by_max (breaking_point maximum change : ℤ) : ℤ :=
  Claim.lower_by_max_fuel (maximum.toNat + 1) breaking_point maximum change

/-- `Claim.__get_strategy`: looks up the coefficient/rate tables by the
spread and break-rate tags and computes a lowered strategy value — which the
source then discards, returning `breaking_point` unchanged. -/
def Claim.get_strategy (spread : Str) (breaking_point : ℕ)
    (break_rate : Str) : ℕ :=
  let coeff : List ℤ := [6, 5, 4, 4, 4, 3, 2]
  let rates : List ℤ := [3, 3, 2, 2, 2, 1, 1]
  let _strategy : ℤ :=
    (List.range 7).foldl
      (fun strategy i =>
        if spread = Claim.TAGS.getD i [] then
          (List.range 7).foldl
            (fun st j =>
              if break_rate = Claim.TAGS.getD j [] then
                Claim.lower_by_max (breaking_point : ℤ)
                  (coeff.getD i 0 * ((j : ℤ) + 1)) (rates.getD i 0)
              else st)
            strategy
        else strategy)
      (breaking_point : ℤ)
  breaking_point

/-- `Claim.__get_strategy` ignores the computed strategy and returns the
breaking point unchanged. -/
lemma Claim.get_strategy_eq (spread : Str) (breaking_point : ℕ)
    (break_rate : Str) :
    Claim.get_strategy spread breaking_point break_rate = breaking_point :=
  rfl

/-- The percentile buckets visited by the `while perc_value >= 0` loop, in
visiting order. -/
def percBuckets : List ℕ := [90, 80, 70, 60, 50, 40, 30, 20, 10, 0]

/-- The body of the `while perc_value >= 0` loop of `Claim.__get_cutoff`:
state is `(cumulative, cur_max, position)`. -/
def cutoffFold (delta : ℕ → ℚ) (ps : List ℕ) (st : ℚ × ℚ × ℕ) :
    ℚ × ℚ × ℕ :=
  ps.foldl
    (fun st p =>
      (st.1 + delta p,
       if delta p > st.2.1 then delta p else st.2.1,
       if delta p > st.2.1 then p else st.2.2))
    st

/-- The per-bucket percentile drop of a score list. -/
def bucketDelta (tfidfs : List ℚ) (p : ℕ) : ℚ :=
  percentile tfidfs ((p : ℚ) + 10) - percentile tfidfs (p : ℚ)

/-- `Claim.__get_cutoff`.  `none` models `numpy.percentile` raising on an
empty score list.  On a constant score list every delta is 0, `cumulative`
is the numpy float `0.0`, and `cur_max / cumulative` is numpy scalar
division yielding `nan` (a RuntimeWarning, not an exception); every `>`
comparison of `__get_tag` is false on `nan`, so the tag is `very_small` —
the same tag `__get_tag` assigns to 0, which is what ℚ's `x / 0 = 0`
convention feeds it here, so the embedding is observationally faithful
through `__get_tag`.  Either way `__get_strategy` returns the unmodified
`position`. -/
def Claim.get_cutoff (tfidfs : List ℚ) : Option ℕ :=
  match tfidfs with
  | [] => none
  | _ :: _ =>
    let st := cutoffFold (bucketDelta tfidfs) percBuckets (0, 0, 0)
    some (Claim.get_strategy (Claim.get_tag st.1) st.2.2
      (Claim.get_tag (st.2.1 / st.1)))

/-- The cutoff stated by the claim: the largest percentile bucket whose delta
attains the maximum over all buckets (0 when no delta is positive). -/
def cutoffSpecRef (tfidfs : List ℚ) : ℕ :=
  (percBuckets.filter
    (fun p => 0 < bucketDelta tfidfs p ∧
      ∀ q ∈ percBuckets, bucketDelta tfidfs q ≤ bucketDelta tfidfs p)).foldr
    max 0

/-! ### Fold characterisation lemmas -/

lemma if_gt_eq_max (m d : ℚ) : (if d > m then d else m) = max m d := by
  by_cases h : d > m
  · rw [if_pos h, max_eq_right h.le]
  · rw [if_neg h, max_eq_left (le_of_not_lt h)]

lemma le_foldl_max_init (b : ℚ) (l : List ℚ) : b ≤ l.foldl max b := by
  induction l generalizing b with
  | nil => exact le_refl b
  | cons a t ih => exact le_trans (le_max_left b a) (ih (max b a))

lemma le_foldl_max_of_mem {x : ℚ} {l : List ℚ} (hx : x ∈ l) (b : ℚ) :
    x ≤ l.foldl max b := by
  induction l generalizing b with
  | nil => simp at hx
  | cons a t ih =>
    rcases List.mem_cons.mp hx with rfl | hx'
    · exact le_trans (le_max_right b x) (le_foldl_max_init _ t)
    · exact ih hx' (max b a)

lemma cutoffFold_sum (delta : ℕ → ℚ) (ps : List ℕ) (st : ℚ × ℚ × ℕ) :
    (cutoffFold delta ps st).1 = st.1 + (ps.map delta).sum := by
  induction ps generalizing st with
  | nil => simp [cutoffFold]
  | cons p t ih =>
    rw [cutoffFold, List.foldl_cons, ← cutoffFold]
    rw [ih]
    simp
    ring

lemma cutoffFold_max (delta : ℕ → ℚ) (ps : List ℕ) (st : ℚ × ℚ × ℕ) :
    (cutoffFold delta ps st).2.1 = (ps.map delta).foldl max st.2.1 := by
  induction ps generalizing st with
  | nil => simp [cutoffFold]
  | cons p t ih =>
    rw [cutoffFold, List.foldl_cons, ← cutoffFold]
    rw [ih]
    simp [if_gt_eq_max]

lemma cutoffFold_stay (delta : ℕ → ℚ) (ps : List ℕ) (st : ℚ × ℚ × ℕ)
    (h : ∀ p ∈ ps, delta p ≤ st.2.1) :
    (cutoffFold delta ps st).2 = st.2 := by
  induction ps generalizing st with
  | nil => rfl
  | cons p t ih =>
    rw [cutoffFold, List.foldl_cons, ← cutoffFold]
    have hp : ¬ delta p > st.2.1 :=
      not_lt.mpr (h p (List.mem_cons_self _ _))
    rw [if_neg hp, if_neg hp]
    exact ih (st.1 + delta p, st.2.1, st.2.2)
      (fun q hq => h q (List.mem_cons_of_mem _ hq))

lemma cutoffFold_argmax (delta : ℕ → ℚ) (ps : List ℕ) :
    ∀ (c m : ℚ) (q : ℕ), ps.Pairwise (· > ·) → (∃ p ∈ ps, delta p > m) →
      (cutoffFold delta ps (c, m, q)).2.2 ∈ ps ∧
      delta (cutoffFold delta ps (c, m, q)).2.2
        = (cutoffFold delta ps (c, m, q)).2.1 ∧
      ∀ p ∈ ps, delta p = (cutoffFold delta ps (c, m, q)).2.1 →
        p ≤ (cutoffFold delta ps (c, m, q)).2.2 := by
  induction ps with
  | nil =>
    intro c m q _ hex
    simp at hex
  | cons p t ih =>
    intro c m q hps hex0
    rw [cutoffFold, List.foldl_cons, ← cutoffFold]
    dsimp only
    by_cases hpm : delta p > m
    · rw [if_pos hpm, if_pos hpm]
      by_cases hex : ∃ w ∈ t, delta w > delta p
      · obtain ⟨hmem, heq, hmax⟩ := ih _ _ _ hps.of_cons hex
        refine ⟨List.mem_cons_of_mem _ hmem, heq, ?_⟩
        intro r hr hreq
        rcases List.mem_cons.mp hr with rfl | hr'
        · exfalso
          obtain ⟨w, hw, hwgt⟩ := hex
          have h1 : delta w ≤
              (cutoffFold delta t (c + delta r, delta r, r)).2.1 := by
            rw [cutoffFold_max]
            exact le_foldl_max_of_mem (List.mem_map_of_mem delta hw) _
          rw [← hreq] at h1
          linarith
        · exact hmax r hr' hreq
      · push_neg at hex
        rw [cutoffFold_stay delta t (c + delta p, delta p, p)
          (fun w hw => hex w hw)]
        refine ⟨List.mem_cons_self _ _, rfl, ?_⟩
        intro r hr hreq
        rcases List.mem_cons.mp hr with rfl | hr'
        · exact le_refl r
        · exact le_of_lt (List.rel_of_pairwise_cons hps hr')
    · rw [if_neg hpm, if_neg hpm]
      have hex' : ∃ w ∈ t, delta w > m := by
        obtain ⟨w, hw, hwgt⟩ := hex0
        rcases List.mem_cons.mp hw with rfl | hw'
        · exact absurd hwgt hpm
        · exact ⟨w, hw', hwgt⟩
      obtain ⟨hmem, heq, hmax⟩ := ih _ _ _ hps.of_cons hex'
      refine ⟨List.mem_cons_of_mem _ hmem, heq, ?_⟩
      intro r hr hreq
      rcases List.mem_cons.mp hr with rfl | hr'
      · exfalso
        obtain ⟨w, hw, hwgt⟩ := hex'
        have h1 : delta w ≤ (cutoffFold delta t (c + delta r, m, q)).2.1 := by
          rw [cutoffFold_max]
          exact le_foldl_max_of_mem (List.mem_map_of_mem delta hw) _
        rw [← hreq] at h1
        push_neg at hpm
        linarith
      · exact hmax r hr' hreq

lemma foldr_max_le {l : List ℕ} {b : ℕ} (h : ∀ y ∈ l, y ≤ b) :
    l.foldr max 0 ≤ b := by
  induction l with
  | nil => exact Nat.zero_le b
  | cons a t ih =>
    rw [List.foldr_cons]
    exact max_le (h a (List.mem_cons_self _ _))
      (ih (fun y hy => h y (List.mem_cons_of_mem _ hy)))

lemma foldr_max_eq_of_le {l : List ℕ} {x : ℕ} (hx : x ∈ l)
    (hall : ∀ y ∈ l, y ≤ x) : l.foldr max 0 = x := by
  induction l with
  | nil => simp at hx
  | cons a t ih =>
    rw [List.foldr_cons]
    rcases List.mem_cons.mp hx with rfl | hx'
    · have ht : t.foldr max 0 ≤ x :=
        foldr_max_le (fun y hy => hall y (List.mem_cons_of_mem _ hy))
      omega
    · rw [ih hx' (fun y hy => hall y (List.mem_cons_of_mem _ hy))]
      exact max_eq_right (hall a (List.mem_cons_self _ _))

/-- C2: on every non-empty list of tf-idf scores, `Claim.__get_cutoff`
returns exactly the reference cutoff — the largest bucket of steepest
percentile drop (0 when no delta is positive) — and the lowering computed
via `__get_strategy`/`__lower_by_max` has no effect on the returned value.
On a constant list the `cur_max / cumulative` division yields the numpy
`nan` (no exception), which `__get_tag` tags like 0, and the returned
position is 0, still the reference value. -/
theorem get_cutoff_eq_spec (tfidfs : List ℚ) (hne : tfidfs ≠ []) :
    Claim.get_cutoff tfidfs = some (cutoffSpecRef tfidfs) := by
  obtain ⟨x, t, rfl⟩ := List.exists_cons_of_ne_nil hne
  rw [Claim.get_cutoff, Claim.get_strategy_eq]
  congr 1
  by_cases hex : ∃ p ∈ percBuckets, bucketDelta (x :: t) p > 0
  · have hpair : percBuckets.Pairwise (· > ·) := by decide
    obtain ⟨hmem, heq, hmax⟩ := cutoffFold_argmax (bucketDelta (x :: t))
      percBuckets 0 0 0 hpair hex
    have hM : ∀ q ∈ percBuckets, bucketDelta (x :: t) q ≤
        (cutoffFold (bucketDelta (x :: t)) percBuckets (0, 0, 0)).2.1 := by
      intro q hq
      rw [cutoffFold_max]
      exact le_foldl_max_of_mem (List.mem_map_of_mem _ hq) _
    symm
    apply foldr_max_eq_of_le
    · rw [List.mem_filter]
      refine ⟨hmem, ?_⟩
      rw [decide_eq_true_eq]
      obtain ⟨w, hw, hwgt⟩ := hex
      refine ⟨by calc (0:ℚ) < bucketDelta (x :: t) w := hwgt
                  _ ≤ _ := hM w hw
                  _ = bucketDelta (x :: t) _ := heq.symm, ?_⟩
      intro q hq
      rw [heq]
      exact hM q hq
    · intro y hy
      rw [List.mem_filter, decide_eq_true_eq] at hy
      obtain ⟨hy_mem, _, hy_max⟩ := hy
      apply hmax y hy_mem
      exact le_antisymm (hM y hy_mem) (heq ▸ hy_max _ hmem)
  · push_neg at hex
    have hstay := cutoffFold_stay (bucketDelta (x :: t)) percBuckets
      (0, 0, 0) (by intro p hp; exact hex p hp)
    rw [hstay]
    symm
    have hfilter : (percBuckets.filter
        (fun p => 0 < bucketDelta (x :: t) p ∧
          ∀ q ∈ percBuckets,
            bucketDelta (x :: t) q ≤ bucketDelta (x :: t) p)) = [] := by
      rw [List.filter_eq_nil]
      intro p hp
      rw [decide_eq_true_eq]
      rintro ⟨hpos, -⟩
      exact absurd hpos (not_lt.mpr (hex p hp))
    rw [cutoffSpecRef, hfilter]
    rfl

/-- Witness for C2 at the score lists `[1, 2]` and the constant `[1]` (the
latter exercising the `nan`-tag path). -/
theorem get_cutoff_eq_spec_witness :
    Claim.get_cutoff [(1:ℚ), 2] = some (cutoffSpecRef [(1:ℚ), 2]) ∧
    Claim.get_cutoff [(1:ℚ)] = some (cutoffSpecRef [(1:ℚ)]) :=
  ⟨get_cutoff_eq_spec [(1:ℚ), 2] (by simp),
   get_cutoff_eq_spec [(1:ℚ)] (by simp)⟩

/-! ## `ArticleClaims.from_text` (`claims.py`, lines 515-593) -/

/-- A `Claim` object as created by `ArticleClaims.from_text`. -/
structure ClaimRec where
  title : Str
  text : Str
  claim_type : Char
  article_text : Str
deriving DecidableEq

/-- The `while "*" in lines[line_no+i]` list-continuation loop of
`from_text`.  `none` models an uncaught `IndexError`; the callers pass fuel
`lines.length + 2`, which the loop can never exhaust since the line index
strictly increases. -/
def starLoop (lines : List Str) (line_no : ℕ) :
    ℕ → ℕ → Str → Option Str
  | 0, _, _ => none
  | fuel + 1, i, claim =>
      match lines.get? (line_no + i) with
      | none => none
      | some l =>
          if '*' ∈ l then starLoop lines line_no fuel (i + 1) (claim ++ l)
          else some claim

/-- Processing of segment `claim_no` of a marker-bearing line (the body of
the `for claim_no, claim in enumerate(claims)` loop, for non-final
segments).  `none` models an uncaught `IndexError`; `some []` models
`continue`. -/
def processClaim (title text : Str) (lines : List Str) (line_no : ℕ)
    (claims : List Str) (claim_no : ℕ) : Option (List ClaimRec) :=
  let claim := claims.getD claim_no []
  if claim.length < 15 then some []
  else if ':' ∈ claim.drop (claim.length - 4) then
    let sents := split_in_sents claim
    match sents.get? (sents.length - 1) with
    | none => none
    | some lastSent =>
        if (claims.getD (claim_no + 1) []).length > 5 then
          some [⟨title, lastSent ++ claims.getD (claim_no + 1) [], 'F', text⟩]
        else
          match lines.get? (line_no + 1) with
          | none => none
          | some nextLine =>
              if '*' ∈ nextLine then
                match starLoop lines line_no (lines.length + 2) 1 lastSent with
                | none => none
                | some c => some [⟨title, c, 'F', text⟩]
              else
                some [⟨title, lastSent ++ [' '] ++ nextLine, 'F', text⟩]
  else
    some [⟨title,
      (if 2 ≤ claim_no then claims.getD (claim_no - 2) [] else []) ++
      ((if 1 ≤ claim_no then claims.getD (claim_no - 1) [] else []) ++ claim),
      'B', text⟩]

/-- `ArticleClaims.from_text`: split the article text into paragraph lines,
split each marker-bearing line on `$$CNMARK$$`, and harvest one claim per
non-final segment.  `none` models an uncaught `IndexError` aborting the
whole extraction. -/
def ArticleClaims.from_text (article_title article_text : Str) :
    Option (List ClaimRec) :=
  let lines := splitChar '\n' article_text
  lines.enum.foldlM
    (fun acc (p : ℕ × Str) =>
      if pyContains p.2 CNMARK then
        let claims := pySplit CNMARK p.2
        (List.range (claims.length - 1)).foldlM
          (fun acc2 claim_no =>
            (processClaim article_title article_text lines p.1 claims
              claim_no).map (acc2 ++ ·))
          acc
      else pure acc)
    []

/-- C4: on an article whose marker paragraph is the last line, with a
Forward-direction claim whose following segment has length ≤ 5, the access
`lines[line_no+1]` in the list-marker test raises an uncaught `IndexError`
(the `try`/`except IndexError` in the source only protects the later join,
which can no longer fail), so extraction aborts instead of ignoring the
missing next paragraph; appending a next paragraph line makes the same
article extract normally. -/
theorem from_text_last_line_crash :
    ArticleClaims.from_text ("T".toList)
        ("0123456789abcd:$$CNMARK$$x".toList) = none ∧
    ArticleClaims.from_text ("T".toList)
        ("0123456789abcd:$$CNMARK$$x\nnext".toList)
      = some [⟨"T".toList, "0123456789abcd: next".toList, 'F',
          "0123456789abcd:$$CNMARK$$x\nnext".toList⟩] := by
  refine ⟨by decide, by decide⟩

/-- C8 counterexample: on the input `"{{a"` the scanner finds no complete
template span (it records an opening but no closing), yet the rewriter
returns the empty string, not the input. -/
theorem replace_unclosed_counterexample :
    ((scanTemplates ("\x7b\x7ba".toList)).1.zip
        (scanTemplates ("\x7b\x7ba".toList)).2) = [] ∧
    replace_citation_templates ("\x7b\x7ba".toList) ["cn".toList]
        ("quote".toList) ("text".toList) = [] ∧
    ("\x7b\x7ba".toList : Str) ≠ [] := by
  refine ⟨by decide, by decide, by decide⟩

/-! ## `BingResponse.__compare_site` (`bingapi.py`, lines 195-292) -/

/-- `BingResponse.__compare_site`, shallowly embedded.  The two I/O steps are
modelled as inputs: `fetch` is the outcome of `urllib2.urlopen` plus
`geturl()`/`read()` (`none` = any exception, `some (actual_url, page)`
otherwise), and `extract` is the outcome of `justext.justext` on the fetched
page (`none` = exception, `some paragraphs` otherwise).  The bag-of-words
dictionary and the floating-point `gensim.matutils.cossim` similarity of a
paragraph against the claim are abstracted into `sim` (for a paragraph
sharing no token with the claim the cosine is 0); the page-against-article
similarity is computed by the source but unused, its threshold block being
commented out.  The paragraph loop keeps the first paragraph strictly
exceeding all previous similarities and truncates it to 1000 characters. -/
def compare_site {β : Type} (fetch : Option (Str × β))
    (extract : β → Option (List Str)) (sim : Str → ℚ) :
    Option (Str × Str) :=
  match fetch with
  | none => none
  | some (actual_url, page) =>
    match extract page with
    | none => none
    | some paragraphs =>
      let r := paragraphs.foldl
        (fun (st : Str × ℚ) paragraph =>
          if st.2 < sim paragraph then (paragraph, sim paragraph) else st)
        ([], 0)
      some (actual_url, if r.1.length > 1000 then r.1.take 1000 else r.1)

lemma compare_fold_zero (sim : Str → ℚ) (paragraphs : List Str)
    (h : ∀ par ∈ paragraphs, sim par = 0) :
    paragraphs.foldl
      (fun (st : Str × ℚ) paragraph =>
        if st.2 < sim paragraph then (paragraph, sim paragraph) else st)
      ([], 0) = ([], 0) := by
  induction paragraphs with
  | nil => rfl
  | cons p t ih =>
    rw [List.foldl_cons]
    rw [h p (List.mem_cons_self _ _), if_neg (lt_irrefl 0)]
    exact ih (fun par hp => h par (List.mem_cons_of_mem _ hp))

/-- C9: whenever the fetch and the extraction both succeed `compare_site`
returns a `(url, excerpt)` pair and never a rejection — with the empty
excerpt when the page yields no paragraphs or no paragraph shares a token
with the claim (zero similarity everywhere) — and it returns `none` exactly
when fetching or extraction fails. -/
theorem compare_site_total {β : Type} (fetch : Option (Str × β))
    (extract : β → Option (List Str)) (sim : Str → ℚ) :
    (∀ url page paragraphs, fetch = some (url, page) →
      extract page = some paragraphs →
      (∃ excerpt, compare_site fetch extract sim = some (url, excerpt)) ∧
      (paragraphs = [] → compare_site fetch extract sim = some (url, [])) ∧
      ((∀ par ∈ paragraphs, sim par = 0) →
        compare_site fetch extract sim = some (url, []))) ∧
    (compare_site fetch extract sim = none ↔
      (fetch = none ∨ ∃ url page, fetch = some (url, page) ∧
        extract page = none)) := by
  constructor
  · intro url page paragraphs hf he
    subst hf
    rw [compare_site, he]
    dsimp only
    refine ⟨⟨_, rfl⟩, ?_, ?_⟩
    · rintro rfl
      rfl
    · intro hz
      rw [compare_fold_zero sim paragraphs hz]
      rfl
  · constructor
    · intro hn
      match hf : fetch with
      | none => exact Or.inl rfl
      | some (url, page) =>
        refine Or.inr ⟨url, page, rfl, ?_⟩
        rw [compare_site] at hn
        match he : extract page with
        | none => rfl
        | some paragraphs => rw [he] at hn; exact absurd hn (by simp)
    · rintro (hf | ⟨url, page, hf, he⟩)
      · rw [hf]; rfl
      · rw [hf, compare_site, he]

/-- Witness for C9 at a concrete successful fetch of a page with no
paragraphs. -/
theorem compare_site_total_witness :
    compare_site (some ("u".toList, (0:ℕ))) (fun _ => some ([] : List Str))
      (fun _ => 0) = some ("u".toList, []) :=
  ((compare_site_total (some ("u".toList, (0:ℕ)))
    (fun _ => some ([] : List Str)) (fun _ => 0)).1
    ("u".toList) 0 [] rfl rfl).2.1 rfl

/-! ## `Claim.get_query` (`claims.py`, lines 106-178, with
`__get_tokens_with_tfs` lines 180-292 and `__get_idfs` lines 294-319)

`log x b` stands for the floating-point `math.log(x, b)` (argument order as
in Python); `dictionary` combines `token2id` and `dfs`, mapping a token to
its document frequency, `none` when the token is absent. -/

/-- Add the weight increment for a repeated token to the first matching
entry (`token_weights[tokens.index(token)] += ...`). -/
def bumpWeight (tok : Str) (w : ℚ) : List (Str × ℚ) → List (Str × ℚ)
  | [] => []
  | e :: es =>
      if e.1 = tok then (e.1, e.2 + w) :: es else e :: bumpWeight tok w es

/-- One pass of the `while i < 4` loop of `__get_tokens_with_tfs` over the
tokens of `sentences[-i]`: a new token is appended with weight `0.6 ^ i`
(weight 1 when `i = 1`); a repeated token gets `0.6 ^ i` added to its weight
unless `i = 1`. -/
def addSentenceTokens (i : ℕ) (entries : List (Str × ℚ)) (sent : Str) :
    List (Str × ℚ) :=
  (tokenize sent).foldl
    (fun es tok =>
      let tok := pyLower tok
      if tok ∈ es.map Prod.fst then
        if i ≠ 1 then bumpWeight tok ((3/5 : ℚ) ^ i) es else es
      else
        es ++ [(tok, if i ≠ 1 then (3/5 : ℚ) ^ i else 1)])
    entries

/-- Python's negative index `sentences[-i]` (callers only use it in
range). -/
def negIdx (sentences : List Str) (i : ℕ) : Str :=
  sentences.getD (sentences.length - i) []

/-- The `while i < 4` loop over the last three sentences, stopping early
when the sentence just processed equals `sentences[0]`.  `none` models the
`IndexError` of `sentences[-1]` on an empty sentence list. -/
def tokensWeights (sentences : List Str) : Option (List (Str × ℚ)) :=
  match sentences with
  | [] => none
  | s0 :: _ =>
    let e1 := addSentenceTokens 1 [] (negIdx sentences 1)
    if negIdx sentences 1 = s0 then some e1
    else
      let e2 := addSentenceTokens 2 e1 (negIdx sentences 2)
      if negIdx sentences 2 = s0 then some e2
      else some (addSentenceTokens 3 e2 (negIdx sentences 3))

/-- The `for word in tokenize(text)` term-frequency loop: increment the
count of the first entry whose lower-cased token equals the word, then
break. -/
def bumpCount (word : Str) : List (Str × ℚ × ℕ) → List (Str × ℚ × ℕ)
  | [] => []
  | e :: es =>
      if pyLower e.1 = word then (e.1, e.2.1, e.2.2 + 1) :: es
      else e :: bumpCount word es

/-- `Claim.__get_tokens_with_tfs`: harvest weighted tokens from the last
three sentences, add introduction tokens (weight 0.7) for Forward claims
with more than three sentences, count raw term frequencies over the article
text, combine as `log(tf + 14, 15) * weight`, and normalise. -/
def get_tokens_with_tfs (log : ℚ → ℚ → ℚ) (claim_type : Char)
    (sentences : List Str) (text : Str) :
    Option (List Str × List ℚ) :=
  match tokensWeights sentences with
  | none => none
  | some entries =>
    let entries :=
      if claim_type = 'F' ∧ sentences.length > 3 then
        (tokenize (sentences.headD [])).foldl
          (fun es tok =>
            let tok := pyLower tok
            if tok ∈ es.map Prod.fst then es
            else es ++ [(tok, (7/10 : ℚ))])
          entries
      else entries
    let counted := (tokenize text).foldl
      (fun es word => bumpCount (pyLower word) es)
      (entries.map (fun e => (e.1, e.2, 0)))
    let token_tfs := counted.map
      (fun e => log ((e.2.2 : ℚ) + 14) 15 * e.2.1)
    some (counted.map (fun e => e.1), Claim.normalize token_tfs)

/-- `Claim.__get_idfs`: `log2(num_documents / df)` per token; any failure
(token absent from the dictionary, or a zero document frequency) yields 0
via the bare `except`. -/
def get_idfs (log : ℚ → ℚ → ℚ) (tokens : List Str)
    (dictionary : Str → Option ℕ) (num_documents : ℕ) : List ℚ :=
  tokens.map (fun t =>
    match dictionary t with
    | none => 0
    | some df => if df = 0 then 0 else log ((num_documents : ℚ) / df) 2)

/-- Python's stable `sort(key=lambda tup: tup[1], reverse=True)`: stable
descending by tf-idf value.  The stable descending permutation is unique, so
insertion sort that keeps an earlier element in front of later equal-valued
ones is a faithful model. -/
def sortDesc (l : List (Str × ℚ)) : List (Str × ℚ) :=
  List.insertionSort (fun a b => b.2 ≤ a.2) l

/-- The keyword-collection loop of `get_query`: walk the sorted pairs,
adding tokens whose value is ≥ the cutoff percentile to the `prequery` set
(modelled as a duplicate-free list), stopping after the 10th keyword or at
the first value below the threshold. -/
def prequeryLoop (perc : ℚ) : List (Str × ℚ) → List Str → List Str
  | [], acc => acc
  | tok :: rest, acc =>
      if tok.2 ≥ perc then
        let acc := if tok.1 ∈ acc then acc else acc ++ [tok.1]
        if acc.length ≥ 10 then acc
        else prequeryLoop perc rest acc
      else acc

/-- The title-prepending loop of `get_query`: walk the title tokens in
reverse and insert each lower-cased token at the front unless it is already
in the query.  (The `unicode(token, "utf-8")` line of the source is dead for
the unicode tokens gensim yields and is not modelled.) -/
def insertTitle (title_array : List Str) (query : List Str) : List Str :=
  title_array.reverse.foldl
    (fun query keyword =>
      let keyword := pyLower keyword
      if keyword ∈ query then query else keyword :: query)
    query

/-- `Claim.get_query` up to (and excluding) the final trim and title
insertion: sentence split, weighted tf and idf, tf*idf normalisation,
stable descending sort, adaptive cutoff, percentile threshold, keyword
collection, and reordering by order of appearance in the claim.  `none`
models the uncaught exceptions: `IndexError` on an empty sentence list and
`numpy.percentile` raising on an empty token list. -/
def queryBody (log : ℚ → ℚ → ℚ) (dictionary : Str → Option ℕ)
    (article_count : ℕ) (text : Str) (claim_type : Char)
    (article_text : Str) : Option (List Str) :=
  let sentences := split_in_sents text
  match get_tokens_with_tfs log claim_type sentences article_text with
  | none => none
  | some (tokens, token_tfs) =>
    let token_idfs := get_idfs log tokens dictionary article_count
    let tfidfs := Claim.normalize (List.zipWith (· * ·) token_tfs token_idfs)
    let tokens_with_idfs := sortDesc (tokens.zip tfidfs)
    match Claim.get_cutoff tfidfs with
    | none => none
    | some cutoff =>
      let perc := percentile tfidfs (cutoff : ℚ)
      let prequery := prequeryLoop perc tokens_with_idfs []
      some (tokens.filter (· ∈ prequery))

/-- `Claim.get_query`: the stored query as its token list (the attribute
`self.query` is the space-join of these tokens). -/
def get_query (log : ℚ → ℚ → ℚ) (dictionary : Str → Option ℕ)
    (article_count : ℕ) (title text : Str) (claim_type : Char)
    (article_text : Str) : Option (List Str) :=
  (queryBody log dictionary article_count text claim_type article_text).map
    (fun query =>
      let query := if query.length > 8 then query.take 7 else query
      insertTitle (tokenize title) query)

/-- The stored `self.query` string. -/
def get_query_str (log : ℚ → ℚ → ℚ) (dictionary : Str → Option ℕ)
    (article_count : ℕ) (title text : Str) (claim_type : Char)
    (article_text : Str) : Option Str :=
  (get_query log dictionary article_count title text claim_type
    article_text).map (pyJoin [' '])

/-! ### Structure of the stored query (C1) -/

/-- Deduplication keeping the last occurrence of each element. -/
def dedupKeepLast : List Str → List Str
  | [] => []
  | a :: rest =>
      if a ∈ rest then dedupKeepLast rest else a :: dedupKeepLast rest

lemma insertTitle_cons (a : Str) (T q : List Str) :
    insertTitle (a :: T) q =
      if pyLower a ∈ insertTitle T q then insertTitle T q
      else pyLower a :: insertTitle T q := by
  unfold insertTitle
  rw [List.reverse_cons, List.foldl_append]
  rfl

lemma mem_insertTitle {x : Str} (T q : List Str) :
    x ∈ insertTitle T q ↔ x ∈ T.map pyLower ∨ x ∈ q := by
  induction T with
  | nil =>
    simp [insertTitle]
  | cons a T ih =>
    rw [insertTitle_cons]
    split_ifs with hmem
    · rw [ih]
      constructor
      · rintro (h | h)
        · exact Or.inl (by simp [h])
        · exact Or.inr h
      · rintro (h | h)
        · rcases (List.mem_map).mp h with ⟨b, hb, rfl⟩
          rcases List.mem_cons.mp hb with rfl | hb'
          · exact (ih.mp hmem).imp id id
          · exact Or.inl (List.mem_map_of_mem _ hb')
        · exact Or.inr h
    · rw [List.mem_cons, ih]
      constructor
      · rintro (rfl | h | h)
        · exact Or.inl (by simp)
        · exact Or.inl (by simp [h])
        · exact Or.inr h
      · rintro (h | h)
        · rcases (List.mem_map).mp h with ⟨b, hb, rfl⟩
          rcases List.mem_cons.mp hb with rfl | hb'
          · exact Or.inl rfl
          · exact Or.inr (Or.inl (List.mem_map_of_mem _ hb'))
        · exact Or.inr (Or.inr h)

lemma mem_dedupKeepLast {x : Str} (l : List Str) :
    x ∈ dedupKeepLast l ↔ x ∈ l := by
  induction l with
  | nil => simp [dedupKeepLast]
  | cons a t ih =>
    rw [dedupKeepLast]
    split_ifs with hmem
    · rw [ih, List.mem_cons]
      constructor
      · exact Or.inr
      · rintro (rfl | h)
        · exact hmem
        · exact h
    · rw [List.mem_cons, List.mem_cons, ih]

/-- The title-prepending loop prepends exactly the lower-cased title tokens,
deduplicated keeping last occurrences, filtered to those not already in the
query. -/
lemma insertTitle_eq (T q : List Str) :
    insertTitle T q =
      (dedupKeepLast (T.map pyLower)).filter (· ∉ q) ++ q := by
  induction T with
  | nil => simp [insertTitle, dedupKeepLast]
  | cons a T ih =>
    rw [insertTitle_cons, List.map_cons, dedupKeepLast]
    split_ifs with h1 h2 h2
    · exact ih
    · -- pyLower a ∈ insertTitle T q but not in the later title tokens:
      -- it must already be in q, so the filter drops it
      rw [ih]
      have hq : pyLower a ∈ q := by
        rcases (mem_insertTitle T q).mp h1 with h | h
        · exact absurd h h2
        · exact h
      rw [List.filter_cons_of_neg (by simpa using hq)]
    · -- pyLower a occurs later in the title: dedup drops it, and it is
      -- already in insertTitle T q, contradiction with h1
      exfalso
      exact h1 ((mem_insertTitle T q).mpr (Or.inl h2))
    · -- fresh token: prepended and kept by the filter
      have hq : pyLower a ∉ q := fun hq =>
        h1 ((mem_insertTitle T q).mpr (Or.inr hq))
      rw [List.filter_cons_of_pos (by simpa using hq), ih]
      rfl

/-- C1 (amended): for every claim on which query synthesis completes, the
claim-derived body of the stored query has at most 8 tokens, and the full
query is exactly the lower-cased title tokens — deduplicated keeping last
occurrences, those already present in the body skipped — prepended in front
of the body; the whole query may therefore exceed 8 tokens. -/
theorem get_query_structure (log : ℚ → ℚ → ℚ) (dictionary : Str → Option ℕ)
    (article_count : ℕ) (title text : Str) (claim_type : Char)
    (article_text : Str) (q : List Str)
    (h : get_query log dictionary article_count title text claim_type
      article_text = some q) :
    ∃ body : List Str, body.length ≤ 8 ∧
      q = (dedupKeepLast ((tokenize title).map pyLower)).filter
        (· ∉ body) ++ body := by
  rw [get_query] at h
  rcases hb : queryBody log dictionary article_count text claim_type
      article_text with _ | body0
  · rw [hb] at h; exact absurd h (by simp)
  · rw [hb, Option.map_some'] at h
    refine ⟨if body0.length > 8 then body0.take 7 else body0, ?_, ?_⟩
    · split_ifs with hlen
      · calc (body0.take 7).length ≤ 7 := by
              rw [List.length_take]; omega
          _ ≤ 8 := by omega
      · omega
    · rw [← insertTitle_eq]
      exact (Option.some.injEq _ _).mp h.symm

/-! ### Concrete runs of `get_query` (C1) -/

/-- An exact stand-in for the floating-point `math.log` at the points
evaluated by the concrete runs below: `log(15, 15) = 1` and `log(2, 2) = 1`.
The float computation also produces exactly these values
(`log(x)/log(x) == 1.0`), so the runs agree with the source bit for bit. -/
def logEx (x b : ℚ) : ℚ :=
  if x = 15 ∧ b = 15 then 1
  else if x = 2 ∧ b = 2 then 1
  else 0

/-- Document frequencies of the two-document corpus used by the concrete
runs: `alpha` occurs in 1 of the 2 documents; every other token is absent
from the dictionary. -/
def dictEx (t : Str) : Option ℕ :=
  if t = "alpha".toList then some 1 else none

lemma get_tokens_eval :
    get_tokens_with_tfs logEx 'B' ["alpha beta".toList]
      ("alpha beta".toList)
    = some (["alpha".toList, "beta".toList], [1/2, 1/2]) := by
  rw [get_tokens_with_tfs,
    show tokensWeights ["alpha beta".toList]
      = some [("alpha".toList, 1), ("beta".toList, 1)] from by decide]
  dsimp only
  rw [if_neg (by decide)]
  simp only [List.map_cons, List.map_nil]
  rw [show (tokenize ("alpha beta".toList)).foldl
        (fun es word => bumpCount (pyLower word) es)
        ([("alpha".toList, (1:ℚ), 0), ("beta".toList, (1:ℚ), 0)])
      = [("alpha".toList, (1:ℚ), 1), ("beta".toList, (1:ℚ), 1)]
    from by decide]
  simp only [List.map_cons, List.map_nil]
  norm_num [logEx, Claim.normalize]

lemma get_cutoff_eval : Claim.get_cutoff [(1:ℚ), 0] = some 90 := by
  have hd : ∀ p ∈ percBuckets, bucketDelta [(1:ℚ), 0] p = 1/10 := by
    intro p hp
    fin_cases hp <;>
      norm_num [bucketDelta, percentile, List.insertionSort,
        List.orderedInsert]
  rw [Claim.get_cutoff]
  simp only [cutoffFold, percBuckets, List.foldl_cons, List.foldl_nil,
    hd 90 (by decide), hd 80 (by decide), hd 70 (by decide),
    hd 60 (by decide), hd 50 (by decide), hd 40 (by decide),
    hd 30 (by decide), hd 20 (by decide), hd 10 (by decide),
    hd 0 (by decide)]
  norm_num [Claim.get_strategy_eq]

/-- The claim-derived body of the concrete runs: the single keyword
`alpha`. -/
lemma queryBody_eval :
    queryBody logEx dictEx 2 ("alpha beta".toList) 'B'
      ("alpha beta".toList) = some ["alpha".toList] := by
  have hi : get_idfs logEx ["alpha".toList, "beta".toList] dictEx 2
      = [1, 0] := by
    rw [get_idfs]
    simp only [List.map_cons, List.map_nil]
    rw [show dictEx ("alpha".toList) = some 1 from by decide,
      show dictEx ("beta".toList) = none from by decide]
    norm_num [logEx]
  have hp90 : percentile [(1:ℚ), 0] ((90:ℕ) : ℚ) = 9/10 := by
    norm_num [percentile, List.insertionSort, List.orderedInsert]
  rw [queryBody,
    show split_in_sents ("alpha beta".toList) = ["alpha beta".toList]
      from by decide,
    get_tokens_eval]
  dsimp only
  rw [hi]
  rw [show List.zipWith (· * ·) [(1:ℚ)/2, 1/2] [(1:ℚ), 0] = [1/2, 0]
    from by norm_num]
  rw [show Claim.normalize [(1:ℚ)/2, 0] = [1, 0]
    from by norm_num [Claim.normalize]]
  simp only [List.zip_cons_cons, List.zip_nil_right]
  rw [show sortDesc [("alpha".toList, (1:ℚ)), ("beta".toList, 0)]
      = [("alpha".toList, (1:ℚ)), ("beta".toList, 0)]
    from by norm_num [sortDesc, List.insertionSort, List.orderedInsert]]
  rw [get_cutoff_eval]
  dsimp only
  rw [hp90]
  rw [show prequeryLoop (9/10) [("alpha".toList, (1:ℚ)),
        ("beta".toList, 0)] [] = ["alpha".toList]
    from by norm_num [prequeryLoop]]
  rw [show (["alpha".toList, "beta".toList].filter
      (· ∈ ["alpha".toList])) = ["alpha".toList] from by decide]

/-- The stored query of the concrete runs, as a function of the title. -/
lemma get_query_eval (title : Str) :
    get_query logEx dictEx 2 title ("alpha beta".toList) 'B'
      ("alpha beta".toList)
    = some (insertTitle (tokenize title) ["alpha".toList]) := by
  rw [get_query, queryBody_eval, Option.map_some']
  norm_num

/-- C1 counterexample.  With the nine-token title `"t u v w x y z q r"` the
synthesis completes and stores a 10-token query, refuting the ≤ 8 bound; and
with the title `"a b a"` (a duplicated token) the stored query begins
`b a`, not the original-order deduplication `a b`, refuting the stated title
ordering. -/
theorem get_query_length_counterexample :
    (get_query logEx dictEx 2 ("t u v w x y z q r".toList)
        ("alpha beta".toList) 'B' ("alpha beta".toList)
      = some ["t".toList, "u".toList, "v".toList, "w".toList, "x".toList,
          "y".toList, "z".toList, "q".toList, "r".toList,
          "alpha".toList]) ∧
    (["t".toList, "u".toList, "v".toList, "w".toList, "x".toList,
        "y".toList, "z".toList, "q".toList, "r".toList,
        "alpha".toList] : List Str).length = 10 ∧
    (get_query logEx dictEx 2 ("a b a".toList)
        ("alpha beta".toList) 'B' ("alpha beta".toList)
      = some ["b".toList, "a".toList, "alpha".toList]) := by
  refine ⟨?_, by decide, ?_⟩
  · rw [get_query_eval]
    decide
  · rw [get_query_eval]
    decide

/-- Witness for the amended C1 at the title `"zeta"`. -/
theorem get_query_structure_witness :
    ∃ body : List Str, body.length ≤ 8 ∧
      ["zeta".toList, "alpha".toList] =
        (dedupKeepLast ((tokenize ("zeta".toList)).map pyLower)).filter
          (· ∉ body) ++ body :=
  get_query_structure logEx dictEx 2 ("zeta".toList)
    ("alpha beta".toList) 'B' ("alpha beta".toList)
    ["zeta".toList, "alpha".toList]
    (by rw [get_query_eval]; decide)
